import Mathlib

/-!
Shallow embedding of the `styleripper` CSS/HTML class-renaming engine
(`src/styleripper.js`), together with proofs about its behaviour.

The engine consumes already-parsed HTML and CSS trees supplied by external
tree providers (`node-html-parser` and `css-tree`).  Trees are modelled as
closed tagged-variant types carrying exactly the data the engine reads:
HTML nodes carry a class attribute and children; CSS stylesheets are lists
of rules, each rule a list of selectors, each selector a list of components
that are class selectors (with a raw identifier that may contain escape
backslashes), functional pseudo-classes carrying the nested selector lists
the provider parses their preludes into, or opaque non-class components.
JavaScript objects
used as string-keyed dictionaries are modelled as insertion-ordered
association lists, matching the enumeration order of `Object.entries`.
JavaScript numbers appearing here are non-negative integers and are
modelled as `Nat`; string conversion of such a number is its decimal
representation.
-/

namespace Styleripper

/-- Decimal digit character for a value below ten, code `48 + d`. -/
def digitChar (d : Nat) : Char := Char.ofNat (48 + d)

/-- Little-endian decimal digits of a natural number.  The first argument is
a fuel bound on the number of divisions by ten; `n` itself always suffices,
since each division shrinks the value by at least a factor of ten. -/
def natDigitsRev : Nat → Nat → List Char
  | 0, n => [digitChar (n % 10)]
  | fuel + 1, n =>
    if n < 10 then [digitChar n]
    else digitChar (n % 10) :: natDigitsRev fuel (n / 10)

/-- Decimal string representation of a natural number, as JavaScript
stringification of a non-negative integer produces. -/
def natRepr (n : Nat) : String := String.mk (natDigitsRev n n).reverse

/-- The `range(s, e)` helper inside `generateShortestName`: the integers
from `s` inclusive to `e` exclusive. -/
def jsRange (s e : Nat) : List Nat := (List.range (e - s)).map (· + s)

/-- The `ascii` array of `generateShortestName`:
`range(97, 123).map(c => String.fromCharCode(c))`, the lowercase alphabet. -/
def asciiLetters : List Char := (jsRange 97 123).map Char.ofNat

/-- The loop `while (idx >= ascii.length) { timesOver++; idx -= ascii.length }`
of `generateShortestName`, returning the final `(idx, timesOver)`.  The first
argument is a fuel bound on the iteration count; the initial `idx` always
suffices, since every iteration subtracts twenty-six. -/
def shortestLoop : Nat → Nat → Nat → Nat × Nat
  | 0, idx, timesOver => (idx, timesOver)
  | fuel + 1, idx, timesOver =>
    if asciiLetters.length ≤ idx then shortestLoop fuel (idx - asciiLetters.length) (timesOver + 1)
    else (idx, timesOver)

/-- The shortest-name generator `generateShortestName(idx)` of
`src/styleripper.js`: run the subtraction loop, then return the selected
letter, suffixed with `timesOver - 1` when the loop ran at least once. -/
def generateShortestName (idx : Nat) : String :=
  let p := shortestLoop idx idx 0
  if p.2 ≠ 0 then String.mk [asciiLetters.getD p.1 'a'] ++ natRepr (p.2 - 1)
  else String.mk [asciiLetters.getD p.1 'a']

/-- The `classnames` dictionary: classname keys with occurrence counts, in
insertion order (JavaScript objects enumerate string keys in insertion
order). -/
abbrev Counts := List (String × Nat)

/-- Key membership, the JavaScript `name in classnames` test. -/
def containsKey (m : Counts) (k : String) : Bool := m.any (fun p => p.1 == k)

/-- The count stored for a key, zero when the key is absent. -/
def lookupCount (m : Counts) (k : String) : Nat :=
  match m.find? (fun p => p.1 == k) with
  | some p => p.2
  | none => 0

/-- The statement `classnames[name].count++`: increment the count at an
existing key, leaving every other entry alone. -/
def incrCount (m : Counts) (k : String) : Counts :=
  m.map (fun p => if p.1 == k then (p.1, p.2 + 1) else p)

/-- One step of the HTML counting loop: increment an existing key, or
insert a fresh key with count one (`classnames[className] = { count: 1 }`,
appended in insertion order). -/
def bumpCount (m : Counts) (k : String) : Counts :=
  if containsKey m k then incrCount m k else m ++ [(k, 1)]

/-- The key set of the dictionary, in insertion order. -/
def keysOf (m : Counts) : List String := m.map (fun p => p.1)

/-- Membership of a string in a list of keys. -/
def strMem (k : String) (ks : List String) : Bool := ks.any (fun x => x == k)

/-- Accumulator-based whitespace tokenizer: the tree provider's reading of a
class attribute as a whitespace-separated token list (empty pieces are
dropped).  The second argument is the reversed current token. -/
def splitWSGo : List Char → List Char → List (List Char)
  | [], acc => if acc.isEmpty then [] else [acc.reverse]
  | c :: rest, acc =>
    if c.isWhitespace then
      if acc.isEmpty then splitWSGo rest [] else acc.reverse :: splitWSGo rest []
    else splitWSGo rest (c :: acc)

/-- Split a class attribute into its whitespace-separated tokens. -/
def splitWhitespace (s : String) : List String :=
  (splitWSGo s.data []).map (fun l => String.mk l)

/-- A well-formed class token: nonempty and free of whitespace. -/
def cleanToken (s : String) : Prop :=
  s.data ≠ [] ∧ ∀ c ∈ s.data, ¬ c.isWhitespace

instance : DecidablePred cleanToken := fun s =>
  inferInstanceAs (Decidable (s.data ≠ [] ∧ ∀ c ∈ s.data, ¬ c.isWhitespace = true))

/-- JavaScript `array.join(' ')`: concatenate with single spaces between
elements. -/
def joinSpace : List String → String
  | [] => ""
  | [t] => t
  | t :: rest => t ++ " " ++ joinSpace rest

/-- An HTML element node as the engine reads it: a class attribute and the
ordered list of child nodes.  The provider derives `classNames` from the
attribute by whitespace splitting. -/
inductive HTMLNode where
  | mk (classAttr : String) (childNodes : List HTMLNode)

/-- The class attribute of a node. -/
def HTMLNode.classAttr : HTMLNode → String
  | .mk a _ => a

/-- The children of a node. -/
def HTMLNode.childNodes : HTMLNode → List HTMLNode
  | .mk _ cs => cs

/-- The provider's `node.classNames`: the whitespace-separated tokens of the
class attribute. -/
def HTMLNode.classNames (n : HTMLNode) : List String :=
  splitWhitespace n.classAttr

mutual
/-- The HTML counting pass `parseHTMLNodeChildren(classnames, node)`: bump
the count of every class token on this node, then recurse into children. -/
def parseHTMLNodeChildren (m : Counts) : HTMLNode → Counts
  | .mk attr children =>
    parseHTMLNodeList ((splitWhitespace attr).foldl bumpCount m) children
/-- Counting continued over a list of sibling nodes, left to right. -/
def parseHTMLNodeList (m : Counts) : List HTMLNode → Counts
  | [] => m
  | c :: cs => parseHTMLNodeList (parseHTMLNodeChildren m c) cs
end

mutual
/-- The number of occurrences of one class token in a node and all of its
descendants. -/
def occNode (t : String) : HTMLNode → Nat
  | .mk attr children => (splitWhitespace attr).countP (fun c => c == t) + occList t children
/-- Occurrences summed over a list of sibling nodes. -/
def occList (t : String) : List HTMLNode → Nat
  | [] => 0
  | c :: cs => occNode t c + occList t cs
end

/-- The `rename` dictionary mapping original classnames to short names, in
insertion order. -/
abbrev RenameMap := List (String × String)

/-- The assignment `rename[name] = newname` on a JavaScript object: update
the value at an existing key, or append a fresh entry. -/
def setKey (m : RenameMap) (k v : String) : RenameMap :=
  if m.any (fun p => p.1 == k) then m.map (fun p => if p.1 == k then (k, v) else p)
  else m ++ [(k, v)]

/-- Lookup `rename[c]`, available exactly when `c in rename`. -/
def lookupRename (m : RenameMap) (k : String) : Option String :=
  (m.find? (fun p => p.1 == k)).map (fun p => p.2)

/-- One token of the HTML rewrite: `c in rename ? rename[c] : c`. -/
def substToken (rename : RenameMap) (c : String) : String :=
  match lookupRename rename c with
  | some v => v
  | none => c

/-- The `replace` array of `processHTMLNodeChildren`: map every class token
through the rename dictionary, keeping unmapped tokens unchanged. -/
def renameTokens (rename : RenameMap) (cs : List String) : List String :=
  cs.map (substToken rename)

mutual
/-- The HTML rewrite pass `processHTMLNodeChildren(rename, node)`: when the
token list is nonempty, set the class attribute to the mapped tokens joined
by single spaces; then recurse into children. -/
def processHTMLNodeChildren (rename : RenameMap) : HTMLNode → HTMLNode
  | .mk attr children =>
    let replace := renameTokens rename (splitWhitespace attr)
    .mk (if replace.length > 0 then joinSpace replace else attr)
      (processHTMLNodeList rename children)
/-- The rewrite applied to a list of sibling nodes. -/
def processHTMLNodeList (rename : RenameMap) : List HTMLNode → List HTMLNode
  | [] => []
  | c :: cs => processHTMLNodeChildren rename c :: processHTMLNodeList rename cs
end

mutual
/-- Preorder list of the class-token list of every node of a tree. -/
def nodeTokensList : HTMLNode → List (List String)
  | .mk attr children => splitWhitespace attr :: forestTokensList children
/-- Preorder token lists of a list of sibling trees. -/
def forestTokensList : List HTMLNode → List (List String)
  | [] => []
  | c :: cs => nodeTokensList c ++ forestTokensList cs
end

/-- A component of a CSS selector: a class selector carrying its raw
identifier; a functional pseudo-class (`:not`, `:has`, `:matches`, ...)
whose prelude the tree provider parses into a nested selector list, each
element of `args` being the component list of one nested selector (the
tree walker visits class selectors inside them); or any other component
(combinator, type selector, plain pseudo class, ...), opaque to the
engine. -/
inductive CSSComponent where
  | classSel (name : String)
  | pseudo (name : String) (args : List (List CSSComponent))
  | other (raw : String)

mutual
/-- Decidable equality of selector components (spelled out because automatic
deriving does not handle the nested occurrence). -/
def decEqComponent : (a b : CSSComponent) → Decidable (a = b)
  | .classSel n1, .classSel n2 =>
    match String.decEq n1 n2 with
    | isTrue h => isTrue (by rw [h])
    | isFalse h => isFalse (by intro hc; injection hc; contradiction)
  | .classSel _, .pseudo _ _ => isFalse (by intro hc; exact CSSComponent.noConfusion hc)
  | .classSel _, .other _ => isFalse (by intro hc; exact CSSComponent.noConfusion hc)
  | .pseudo _ _, .classSel _ => isFalse (by intro hc; exact CSSComponent.noConfusion hc)
  | .pseudo n1 a1, .pseudo n2 a2 =>
    match String.decEq n1 n2 with
    | isFalse h => isFalse (by intro hc; injection hc; contradiction)
    | isTrue h1 =>
      match decEqNestedSelectors a1 a2 with
      | isTrue h2 => isTrue (by rw [h1, h2])
      | isFalse h => isFalse (by intro hc; injection hc; contradiction)
  | .pseudo _ _, .other _ => isFalse (by intro hc; exact CSSComponent.noConfusion hc)
  | .other _, .classSel _ => isFalse (by intro hc; exact CSSComponent.noConfusion hc)
  | .other _, .pseudo _ _ => isFalse (by intro hc; exact CSSComponent.noConfusion hc)
  | .other r1, .other r2 =>
    match String.decEq r1 r2 with
    | isTrue h => isTrue (by rw [h])
    | isFalse h => isFalse (by intro hc; injection hc; contradiction)
/-- Decidable equality of component lists. -/
def decEqComponentList : (a b : List CSSComponent) → Decidable (a = b)
  | [], [] => isTrue rfl
  | [], _ :: _ => isFalse (by intro hc; exact List.noConfusion hc)
  | _ :: _, [] => isFalse (by intro hc; exact List.noConfusion hc)
  | x :: xs, y :: ys =>
    match decEqComponent x y with
    | isFalse h => isFalse (by intro hc; injection hc; contradiction)
    | isTrue h1 =>
      match decEqComponentList xs ys with
      | isTrue h2 => isTrue (by rw [h1, h2])
      | isFalse h => isFalse (by intro hc; injection hc; contradiction)
/-- Decidable equality of nested selector lists. -/
def decEqNestedSelectors : (a b : List (List CSSComponent)) → Decidable (a = b)
  | [], [] => isTrue rfl
  | [], _ :: _ => isFalse (by intro hc; exact List.noConfusion hc)
  | _ :: _, [] => isFalse (by intro hc; exact List.noConfusion hc)
  | x :: xs, y :: ys =>
    match decEqComponentList x y with
    | isFalse h => isFalse (by intro hc; injection hc; contradiction)
    | isTrue h1 =>
      match decEqNestedSelectors xs ys with
      | isTrue h2 => isTrue (by rw [h1, h2])
      | isFalse h => isFalse (by intro hc; injection hc; contradiction)
end

instance : DecidableEq CSSComponent := decEqComponent

/-- A CSS selector: the ordered list of its components. -/
structure CSSSelector where
  children : List CSSComponent
deriving DecidableEq

/-- A CSS rule: its selector list (the prelude's children) and its opaque
declaration block. -/
structure CSSRule where
  selectors : List CSSSelector
  block : String
deriving DecidableEq

/-- A CSS stylesheet: the ordered list of its rules. -/
structure Stylesheet where
  rules : List CSSRule
deriving DecidableEq

/-- Strip escape backslashes from a CSS identifier:
`n.replace(/\\/g, '')`. -/
def cleanCSSIdentifier (n : String) : String :=
  String.mk (n.data.filter (fun c => c ≠ '\\'))

/-- The inner loop of the pruning pass, over the components of one
selector: the removal flag of the selector's list item starts false and is
raised when a class-selector component's clean identifier is absent from the
known set (`list.remove(item)`; repeated removals of one item are no-ops). -/
def selectorUnused (known : List String) (sel : CSSSelector) : Bool :=
  sel.children.foldl
    (fun removed s =>
      removed ||
        (match s with
         | .classSel n => !(strMem (cleanCSSIdentifier n) known)
         | .pseudo _ _ => false
         | .other _ => false))
    false

/-- Whether some component of a selector is a class selector whose clean
identifier is absent from the known set. -/
def selectorHasUnknownClass (known : List String) (sel : CSSSelector) : Bool :=
  sel.children.any
    (fun s =>
      match s with
      | .classSel n => !(strMem (cleanCSSIdentifier n) known)
      | .pseudo _ _ => false
      | .other _ => false)

/-- The loop of the pruning pass over a rule's selector list:
`node.prelude.children.each((selector, item, list) => ...)`.  Arguments are
the selectors kept so far, the selectors still to visit, and whether
`parentList.remove(parentItem)` has fired; after each selector is processed
the rule is removed when the selector list has become empty. -/
def ruleSelectorLoop (known : List String) :
    List CSSSelector → List CSSSelector → Bool → List CSSSelector × Bool
  | kept, [], removedRule => (kept, removedRule)
  | kept, s :: rest, removedRule =>
    let kept' := if selectorUnused known s then kept else kept ++ [s]
    ruleSelectorLoop known kept' rest (removedRule || (kept' ++ rest).isEmpty)

/-- Pruning of one rule: the surviving selector list, and whether the rule
itself was removed from the stylesheet. -/
def pruneRule (known : List String) (r : CSSRule) : CSSRule × Bool :=
  let res := ruleSelectorLoop known [] r.selectors false
  ({ r with selectors := res.1 }, res.2)

/-- The pruning walk over all rules of a stylesheet (`csstree.walk` with
`visit: 'Rule'`; the walker visits every rule exactly once even under
removal). -/
def pruneStylesheet (known : List String) (ss : Stylesheet) : Stylesheet :=
  { rules := ss.rules.filterMap (fun r =>
      let pr := pruneRule known r
      if pr.2 then none else some pr.1) }

/-- Dead-rule elimination as §4.2 of the specification words it, for one
selector: remove each class-selector component whose clean identifier is
absent from the known set, keeping the selector's other components. -/
def pruneSelectorSpec (known : List String) (sel : CSSSelector) : CSSSelector :=
  { children := sel.children.filter (fun s =>
      match s with
      | .classSel n => strMem (cleanCSSIdentifier n) known
      | .pseudo _ _ => true
      | .other _ => true) }

/-- Dead-rule elimination as the specification words it, for one rule:
prune every selector's components, then drop the selectors whose component
list has become empty. -/
def pruneRuleSpec (known : List String) (r : CSSRule) : CSSRule :=
  { r with selectors := ((r.selectors.map (pruneSelectorSpec known)).filter
      (fun s => !s.children.isEmpty)) }

/-- Dead-rule elimination as the specification words it, for a stylesheet:
prune every rule, then drop the rules whose selector list has become
empty. -/
def pruneStylesheetSpec (known : List String) (ss : Stylesheet) : Stylesheet :=
  { rules := ((ss.rules.map (pruneRuleSpec known)).filter
      (fun r => !r.selectors.isEmpty)) }

mutual
/-- The counting walk (`visit: 'ClassSelector'`) at one component: a class
selector increments its clean identifier's count, or fails with the fatal
internal error when the identifier is not a known classname; a functional
pseudo-class is descended into, since the tree walker visits the class
selectors of its nested selector lists; any other component is skipped. -/
def countComponent (m : Counts) : CSSComponent → Except String Counts
  | .classSel n =>
    let name := cleanCSSIdentifier n
    if containsKey m name then .ok (incrCount m name)
    else .error "encountered unused class selector when it should have been removed"
  | .pseudo _ args => countNestedSelectors m args
  | .other _ => .ok m
/-- The counting walk over the components of one selector, in document
order. -/
def countSelectorComponents (m : Counts) : List CSSComponent → Except String Counts
  | [] => .ok m
  | c :: rest =>
    match countComponent m c with
    | .ok m' => countSelectorComponents m' rest
    | .error e => .error e
/-- The counting walk over the nested selectors of a functional
pseudo-class prelude. -/
def countNestedSelectors (m : Counts) : List (List CSSComponent) → Except String Counts
  | [] => .ok m
  | sel :: rest =>
    match countSelectorComponents m sel with
    | .ok m' => countNestedSelectors m' rest
    | .error e => .error e
end

/-- The counting walk over a rule's selectors. -/
def countSelectors (m : Counts) : List CSSSelector → Except String Counts
  | [] => .ok m
  | s :: rest =>
    match countSelectorComponents m s.children with
    | .ok m' => countSelectors m' rest
    | .error e => .error e

/-- The counting walk over a stylesheet's rules. -/
def countRules (m : Counts) : List CSSRule → Except String Counts
  | [] => .ok m
  | r :: rest =>
    match countSelectors m r.selectors with
    | .ok m' => countRules m' rest
    | .error e => .error e

/-- The counting walk over every class selector of a stylesheet. -/
def countStylesheet (m : Counts) (ss : Stylesheet) : Except String Counts :=
  countRules m ss.rules

/-- The whole of `parseCSS(classnames, data)` after parsing: prune against
the current key set, then count the surviving class selectors. -/
def parseCSS (m : Counts) (ss : Stylesheet) : Except String (Counts × Stylesheet) :=
  let pruned := pruneStylesheet (keysOf m) ss
  match countStylesheet m pruned with
  | .ok m' => .ok (m', pruned)
  | .error e => .error e

mutual
/-- One component of the renaming walk for the current target classname:
a class selector whose clean identifier equals the target has its raw name
replaced by the generated short name; the flag records that a match fired
(each match also executes `rename[name] = newname`).  The walk
(`visit: 'ClassSelector'`) also reaches class selectors nested inside
functional pseudo-class preludes, so those are renamed as well. -/
def renameComponent (target newname : String) : CSSComponent → CSSComponent × Bool
  | .classSel n =>
    if cleanCSSIdentifier n == target then (.classSel newname, true) else (.classSel n, false)
  | .pseudo pn args =>
    let r := renameNestedSelectors target newname args
    (.pseudo pn r.1, r.2)
  | .other raw => (.other raw, false)
/-- The renaming walk over a list of selector components. -/
def renameComponentList (target newname : String) :
    List CSSComponent → List CSSComponent × Bool
  | [] => ([], false)
  | c :: rest =>
    let r1 := renameComponent target newname c
    let r2 := renameComponentList target newname rest
    (r1.1 :: r2.1, r1.2 || r2.2)
/-- The renaming walk over the nested selectors of a functional
pseudo-class prelude. -/
def renameNestedSelectors (target newname : String) :
    List (List CSSComponent) → List (List CSSComponent) × Bool
  | [] => ([], false)
  | sel :: rest =>
    let r1 := renameComponentList target newname sel
    let r2 := renameNestedSelectors target newname rest
    (r1.1 :: r2.1, r1.2 || r2.2)
end

/-- The renaming walk over one selector's components. -/
def renameSelector (target newname : String) (sel : CSSSelector) : CSSSelector × Bool :=
  let res := renameComponentList target newname sel.children
  (⟨res.1⟩, res.2)

/-- The renaming walk over one rule's selectors. -/
def renameRule (target newname : String) (r : CSSRule) : CSSRule × Bool :=
  let res := r.selectors.foldr
    (fun s acc =>
      let rs := renameSelector target newname s
      (rs.1 :: acc.1, rs.2 || acc.2))
    ([], false)
  ({ r with selectors := res.1 }, res.2)

/-- The renaming walk over a stylesheet for one target classname
(`csstree.walk` with `visit: 'ClassSelector'` inside `processCSS`). -/
def renameStylesheet (target newname : String) (ss : Stylesheet) : Stylesheet × Bool :=
  let res := ss.rules.foldr
    (fun r acc =>
      let rr := renameRule target newname r
      (rr.1 :: acc.1, rr.2 || acc.2))
    ([], false)
  (⟨res.1⟩, res.2)

/-- The loop `for (const [i, sel] of sorted.entries())` of `processCSS`:
for each ranked classname in order, rename every matching class selector in
the tree to `generateShortestName(i)`, and record the pair in `rename`
exactly when at least one node matched. -/
def processCSSLoop : List String → Nat → Stylesheet → RenameMap → Stylesheet × RenameMap
  | [], _, ss, rename => (ss, rename)
  | t :: ts, i, ss, rename =>
    let newname := generateShortestName i
    let r := renameStylesheet t newname ss
    processCSSLoop ts (i + 1) r.1 (if r.2 then setKey rename t newname else rename)

/-- `processCSS(sorted, rename, ast)` applied to each CSS file of the build
unit in order, threading the shared rename dictionary through
(`cssFiles.map(f => processCSS(sorted, rename, f.ast))`). -/
def processCSSFiles (sorted : List String) :
    List Stylesheet → RenameMap → List Stylesheet × RenameMap
  | [], rename => ([], rename)
  | ss :: rest, rename =>
    let one := processCSSLoop sorted 0 ss rename
    let more := processCSSFiles sorted rest one.2
    (one.1 :: more.1, more.2)

/-- Descending ranking relation on weighted entries: the comparator
`(a, b) => b.total - a.total` keeps `a` before `b` exactly when
`b.total ≤ a.total`. -/
def weightGE (a b : String × Nat) : Prop := b.2 ≤ a.2

instance : DecidableRel weightGE := fun a b => Nat.decLe b.2 a.2

instance : IsTotal (String × Nat) weightGE := ⟨fun a b => Nat.le_total b.2 a.2⟩

instance : IsTrans (String × Nat) weightGE := ⟨fun _ _ _ h1 h2 => Nat.le_trans h2 h1⟩

/-- The ranking of `rip`: map every counted classname to its byte weight
`name.length * count`, then sort descending by weight with a deterministic
stable sort (JavaScript `sort` with comparator `b.total - a.total`). -/
def sortedEntries (m : Counts) : List (String × Nat) :=
  List.insertionSort weightGE (m.map (fun p => (p.1, p.1.length * p.2)))

/-- The ranked classnames in assignment order. -/
def sortedNames (m : Counts) : List String :=
  (sortedEntries m).map (fun p => p.1)

mutual
/-- Whether a component is, or contains nested inside a functional
pseudo-class prelude, a class selector with the given clean identifier. -/
def componentHasClass (c : String) : CSSComponent → Bool
  | .classSel n => cleanCSSIdentifier n == c
  | .pseudo _ args => nestedSelectorsHaveClass c args
  | .other _ => false
/-- Whether a component list contains such a class selector. -/
def componentsHaveClass (c : String) : List CSSComponent → Bool
  | [] => false
  | comp :: rest => componentHasClass c comp || componentsHaveClass c rest
/-- Whether the nested selectors of a pseudo-class prelude contain such a
class selector. -/
def nestedSelectorsHaveClass (c : String) : List (List CSSComponent) → Bool
  | [] => false
  | sel :: rest => componentsHaveClass c sel || nestedSelectorsHaveClass c rest
end

/-- Whether some class selector of a stylesheet (at any nesting depth) has
the given clean identifier. -/
def stylesheetHasClass (c : String) (ss : Stylesheet) : Bool :=
  ss.rules.any (fun r => r.selectors.any (fun s => componentsHaveClass c s.children))

/-- A value stored in the `rename` dictionary of `rip`: either a short-name
string written by `processCSS` (`rename[name] = newname`), or the empty
object placed at the key `classnames` by the initializer
`const rename = { classnames: {} }`. -/
inductive JSValue where
  | str (s : String)
  | emptyObj
deriving DecidableEq

/-- JavaScript string conversion as `Array.prototype.join` applies it to an
element: a string is unchanged, a plain object yields `[object Object]`. -/
def jsValueToString : JSValue → String
  | .str s => s
  | .emptyObj => "[object Object]"

/-- The rename dictionary exactly as `rip` creates it before any CSS
rewrite: `{ classnames: {} }`. -/
def initialRenameObject : List (String × JSValue) := [("classnames", JSValue.emptyObj)]

/-- Lookup in the actual dictionary, defined exactly when `c in rename`. -/
def lookupJS (m : List (String × JSValue)) (k : String) : Option JSValue :=
  (m.find? (fun p => p.1 == k)).map (fun p => p.2)

/-- One token of the HTML rewrite over the actual dictionary:
`c in rename ? rename[c] : c`, with `join`'s string coercion applied to the
stored value. -/
def substTokenJS (m : List (String × JSValue)) (c : String) : String :=
  match lookupJS m c with
  | some v => jsValueToString v
  | none => c

/-- The `replace` array of `processHTMLNodeChildren` over the actual
dictionary. -/
def renameTokensJS (m : List (String × JSValue)) (cs : List String) : List String :=
  cs.map (substTokenJS m)

mutual
/-- The HTML rewrite pass run on the rename dictionary as `rip` actually
builds it, stray `classnames` key included. -/
def processHTMLNodeChildrenJS (m : List (String × JSValue)) : HTMLNode → HTMLNode
  | .mk attr children =>
    let replace := renameTokensJS m (splitWhitespace attr)
    .mk (if replace.length > 0 then joinSpace replace else attr)
      (processHTMLNodeListJS m children)
/-- The actual-dictionary rewrite applied to a list of sibling nodes. -/
def processHTMLNodeListJS (m : List (String × JSValue)) : List HTMLNode → List HTMLNode
  | [] => []
  | c :: cs => processHTMLNodeChildrenJS m c :: processHTMLNodeListJS m cs
end

theorem asciiLetters_length : asciiLetters.length = 26 := rfl

theorem strOneAppend_data (c : Char) (s : String) : (String.mk [c] ++ s).data = c :: s.data := by
  cases s
  rfl

theorem strOneAppend_length (c : Char) (s : String) : (String.mk [c] ++ s).length = 1 + s.length := by
  cases s with
  | mk l =>
    show ([c] ++ l).length = 1 + l.length
    simp
    omega

theorem strMk_length (l : List Char) : (String.mk l).length = l.length := rfl

theorem shortestLoop_eq (fuel : Nat) :
    ∀ idx t, idx ≤ fuel → shortestLoop fuel idx t = (idx % 26, t + idx / 26) := by
  induction fuel with
  | zero =>
    intro idx t h
    have hidx : idx = 0 := Nat.le_zero.mp h
    subst hidx
    simp [shortestLoop]
  | succ f ih =>
    intro idx t h
    rw [shortestLoop, asciiLetters_length]
    by_cases h26 : 26 ≤ idx
    · rw [if_pos h26, ih (idx - 26) (t + 1) (by omega)]
      refine Prod.ext ?_ ?_ <;> simp <;> omega
    · rw [if_neg h26]
      refine Prod.ext ?_ ?_ <;> simp <;> omega

theorem generateShortestName_eq (idx : Nat) :
    generateShortestName idx =
      if idx < 26 then String.mk [asciiLetters.getD idx 'a']
      else String.mk [asciiLetters.getD (idx % 26) 'a'] ++ natRepr (idx / 26 - 1) := by
  rw [generateShortestName, shortestLoop_eq idx idx 0 (Nat.le_refl idx)]
  by_cases h : idx < 26
  · rw [if_pos h]
    have h1 : idx / 26 = 0 := Nat.div_eq_of_lt h
    have h2 : idx % 26 = idx := Nat.mod_eq_of_lt h
    simp [h1, h2]
  · rw [if_neg h]
    have h1 : idx / 26 ≠ 0 := by
      have : 26 ≤ idx := Nat.le_of_not_lt h
      intro hc
      omega
    simp [h1]

theorem natDigitsRev_fuel (f1 : Nat) :
    ∀ f2 n, n ≤ f1 → n ≤ f2 → natDigitsRev f1 n = natDigitsRev f2 n := by
  induction f1 with
  | zero =>
    intro f2 n h1 _
    have hn : n = 0 := Nat.le_zero.mp h1
    subst hn
    cases f2 with
    | zero => rfl
    | succ g => simp [natDigitsRev]
  | succ f ih =>
    intro f2 n h1 h2
    cases f2 with
    | zero =>
      have hn : n = 0 := Nat.le_zero.mp h2
      subst hn
      simp [natDigitsRev]
    | succ g =>
      rw [natDigitsRev, natDigitsRev]
      by_cases h10 : n < 10
      · rw [if_pos h10, if_pos h10]
      · rw [if_neg h10, if_neg h10, ih g (n / 10) (by omega) (by omega)]

theorem natDigitsRev_self_eq (n : Nat) :
    natDigitsRev n n =
      if n < 10 then [digitChar n]
      else digitChar (n % 10) :: natDigitsRev (n / 10) (n / 10) := by
  by_cases h10 : n < 10
  · rw [if_pos h10]
    cases n with
    | zero => simp [natDigitsRev, digitChar]
    | succ m => rw [natDigitsRev, if_pos h10]
  · rw [if_neg h10]
    cases n with
    | zero => omega
    | succ m =>
      rw [natDigitsRev, if_neg h10]
      rw [natDigitsRev_fuel m ((m + 1) / 10) ((m + 1) / 10) (by omega) (Nat.le_refl _)]

theorem natDigitsRev_ne_nil (f n : Nat) : natDigitsRev f n ≠ [] := by
  cases f with
  | zero => simp [natDigitsRev]
  | succ g =>
    rw [natDigitsRev]
    by_cases h : n < 10 <;> simp [h]

theorem digitChar_toNat (d : Nat) (h : d < 10) : (digitChar d).toNat = 48 + d := by
  interval_cases d <;> rfl

theorem natDigitsRev_self_length (n : Nat) :
    (natDigitsRev n n).length =
      if n < 10 then 1 else 1 + (natDigitsRev (n / 10) (n / 10)).length := by
  rw [natDigitsRev_self_eq n]
  by_cases h10 : n < 10
  · rw [if_pos h10, if_pos h10]
    rfl
  · rw [if_neg h10, if_neg h10, List.length_cons]
    omega

theorem natDigitsRev_self_length_mono (b : Nat) :
    ∀ a, a ≤ b → (natDigitsRev a a).length ≤ (natDigitsRev b b).length := by
  induction b using Nat.strong_induction_on with
  | _ b ih =>
    intro a hab
    rw [natDigitsRev_self_length a, natDigitsRev_self_length b]
    by_cases h10a : a < 10
    · by_cases h10b : b < 10
      · rw [if_pos h10a, if_pos h10b]
      · rw [if_pos h10a, if_neg h10b]
        omega
    · have h10b : ¬ b < 10 := by omega
      rw [if_neg h10a, if_neg h10b]
      have hrec := ih (b / 10) (by omega) (a / 10) (Nat.div_le_div_right hab)
      omega

theorem natDigitsRev_self_inj (b : Nat) :
    ∀ a, a ≤ b → natDigitsRev a a = natDigitsRev b b → a = b := by
  induction b using Nat.strong_induction_on with
  | _ b ih =>
    intro a hab heq
    rw [natDigitsRev_self_eq a, natDigitsRev_self_eq b] at heq
    by_cases h10a : a < 10
    · by_cases h10b : b < 10
      · rw [if_pos h10a, if_pos h10b] at heq
        have hd : digitChar a = digitChar b := by
          injection heq
        have := congrArg Char.toNat hd
        rw [digitChar_toNat a h10a, digitChar_toNat b h10b] at this
        omega
      · rw [if_pos h10a, if_neg h10b] at heq
        have htail : ([] : List Char) = natDigitsRev (b / 10) (b / 10) := by injection heq
        exact absurd htail.symm (natDigitsRev_ne_nil _ _)
    · have h10b : ¬ b < 10 := by omega
      rw [if_neg h10a, if_neg h10b] at heq
      have hd : digitChar (a % 10) = digitChar (b % 10) := by injection heq
      have htail : natDigitsRev (a / 10) (a / 10) = natDigitsRev (b / 10) (b / 10) := by
        injection heq
      have hda := congrArg Char.toNat hd
      rw [digitChar_toNat (a % 10) (by omega), digitChar_toNat (b % 10) (by omega)] at hda
      have hdiv := ih (b / 10) (by omega) (a / 10) (Nat.div_le_div_right hab) htail
      omega

theorem natRepr_inj (a b : Nat) (h : natRepr a = natRepr b) : a = b := by
  rw [natRepr, natRepr] at h
  have hl : (natDigitsRev a a).reverse = (natDigitsRev b b).reverse := by injection h
  have hd : natDigitsRev a a = natDigitsRev b b := List.reverse_inj.mp hl
  rcases Nat.le_total a b with hab | hba
  · exact natDigitsRev_self_inj b a hab hd
  · exact (natDigitsRev_self_inj a b hba hd.symm).symm

theorem natRepr_length_mono (a b : Nat) (h : a ≤ b) :
    (natRepr a).length ≤ (natRepr b).length := by
  rw [natRepr, natRepr, strMk_length, strMk_length, List.length_reverse, List.length_reverse]
  exact natDigitsRev_self_length_mono b a h

theorem natRepr_length_pos (n : Nat) : 0 < (natRepr n).length := by
  rw [natRepr, strMk_length, List.length_reverse]
  exact List.length_pos.mpr (natDigitsRev_ne_nil n n)

theorem asciiLetters_getD_toNat (a : Nat) (h : a < 26) :
    (asciiLetters.getD a 'a').toNat = 97 + a := by
  interval_cases a <;> rfl

theorem generateShortestName_inj (i j : Nat)
    (h : generateShortestName i = generateShortestName j) : i = j := by
  rw [generateShortestName_eq i, generateShortestName_eq j] at h
  by_cases hi : i < 26 <;> by_cases hj : j < 26
  · rw [if_pos hi, if_pos hj] at h
    have hc : asciiLetters.getD i 'a' = asciiLetters.getD j 'a' := by
      have := congrArg String.data h
      simpa using this
    have := congrArg Char.toNat hc
    rw [asciiLetters_getD_toNat i hi, asciiLetters_getD_toNat j hj] at this
    omega
  · rw [if_pos hi, if_neg hj] at h
    exfalso
    have := congrArg String.length h
    have h1 : (String.mk [asciiLetters.getD i 'a']).length = 1 := rfl
    have h2 : (String.mk [asciiLetters.getD (j % 26) 'a'] ++ natRepr (j / 26 - 1)).length
        = 1 + (natRepr (j / 26 - 1)).length := strOneAppend_length _ _
    rw [h1, h2] at this
    have := natRepr_length_pos (j / 26 - 1)
    omega
  · rw [if_neg hi, if_pos hj] at h
    exfalso
    have := congrArg String.length h
    have h1 : (String.mk [asciiLetters.getD j 'a']).length = 1 := rfl
    have h2 : (String.mk [asciiLetters.getD (i % 26) 'a'] ++ natRepr (i / 26 - 1)).length
        = 1 + (natRepr (i / 26 - 1)).length := strOneAppend_length _ _
    rw [h1, h2] at this
    have := natRepr_length_pos (i / 26 - 1)
    omega
  · rw [if_neg hi, if_neg hj] at h
    have hdata := congrArg String.data h
    have hd : asciiLetters.getD (i % 26) 'a' :: (natRepr (i / 26 - 1)).data
        = asciiLetters.getD (j % 26) 'a' :: (natRepr (j / 26 - 1)).data := by
      rw [strOneAppend_data, strOneAppend_data] at hdata
      exact hdata
    have hc : asciiLetters.getD (i % 26) 'a' = asciiLetters.getD (j % 26) 'a' := by
      injection hd
    have htail : (natRepr (i / 26 - 1)).data = (natRepr (j / 26 - 1)).data := by
      injection hd
    have hmod : i % 26 = j % 26 := by
      have := congrArg Char.toNat hc
      rw [asciiLetters_getD_toNat (i % 26) (by omega), asciiLetters_getD_toNat (j % 26) (by omega)]
        at this
      omega
    have hrepr : natRepr (i / 26 - 1) = natRepr (j / 26 - 1) := by
      cases hr1 : natRepr (i / 26 - 1)
      cases hr2 : natRepr (j / 26 - 1)
      rw [hr1, hr2] at htail
      simp_all
    have hdiv : i / 26 - 1 = j / 26 - 1 := natRepr_inj _ _ hrepr
    omega

theorem generateShortestName_length (idx : Nat) :
    (generateShortestName idx).length =
      if idx < 26 then 1 else 1 + (natRepr (idx / 26 - 1)).length := by
  rw [generateShortestName_eq]
  by_cases h : idx < 26
  · rw [if_pos h, if_pos h]
    rfl
  · rw [if_neg h, if_neg h]
    exact strOneAppend_length _ _

theorem generateShortestName_length_mono (i j : Nat) (h : i ≤ j) :
    (generateShortestName i).length ≤ (generateShortestName j).length := by
  rw [generateShortestName_length, generateShortestName_length]
  by_cases hj : j < 26
  · rw [if_pos (by omega : i < 26), if_pos hj]
  · rw [if_neg hj]
    by_cases hi : i < 26
    · rw [if_pos hi]
      have := natRepr_length_pos (j / 26 - 1)
      omega
    · rw [if_neg hi]
      have := natRepr_length_mono (i / 26 - 1) (j / 26 - 1)
        (by have := Nat.div_le_div_right (c := 26) h; omega)
      omega

theorem containsKey_nil (t : String) : containsKey [] t = false := rfl

theorem containsKey_cons (p : String × Nat) (m : Counts) (t : String) :
    containsKey (p :: m) t = (p.1 == t || containsKey m t) := by
  simp [containsKey]

theorem lookupCount_cons (p : String × Nat) (m : Counts) (t : String) :
    lookupCount (p :: m) t = if p.1 == t then p.2 else lookupCount m t := by
  rw [lookupCount, lookupCount, List.find?]
  by_cases h : p.1 == t
  · rw [h]
    simp
  · simp only [Bool.not_eq_true] at h
    rw [h]
    simp [h]

theorem containsKey_incrCount (m : Counts) (k t : String) :
    containsKey (incrCount m k) t = containsKey m t := by
  induction m with
  | nil => rfl
  | cons p m ih =>
    rw [incrCount, List.map_cons]
    rw [containsKey_cons, containsKey_cons]
    have hfst : (if p.1 == k then (p.1, p.2 + 1) else p).1 = p.1 := by
      by_cases h : p.1 == k <;> simp [h]
    rw [hfst]
    rw [incrCount] at ih
    rw [ih]

theorem lookupCount_incrCount_ne (m : Counts) (k t : String) (hne : k ≠ t) :
    lookupCount (incrCount m k) t = lookupCount m t := by
  induction m with
  | nil => rfl
  | cons p m ih =>
    rw [incrCount, List.map_cons, lookupCount_cons, lookupCount_cons]
    by_cases h : p.1 == k
    · rw [if_pos h]
      have hk : p.1 = k := by simpa using h
      have hnt : ¬ ((p.1, p.2 + 1).1 == t) := by
        simp [hk]
        exact hne
      have hnt2 : ¬ (p.1 == t) := by
        simp [hk]
        exact hne
      rw [if_neg hnt, if_neg hnt2]
      rw [incrCount] at ih
      exact ih
    · rw [if_neg h]
      by_cases ht : p.1 == t
      · rw [if_pos ht, if_pos ht]
      · rw [if_neg ht, if_neg ht]
        rw [incrCount] at ih
        exact ih

theorem lookupCount_incrCount_self (m : Counts) (k : String) (hk : containsKey m k = true) :
    lookupCount (incrCount m k) k = lookupCount m k + 1 := by
  induction m with
  | nil => simp [containsKey] at hk
  | cons p m ih =>
    rw [incrCount, List.map_cons, lookupCount_cons, lookupCount_cons]
    by_cases h : p.1 == k
    · have hfst : (if p.1 == k then (p.1, p.2 + 1) else p) = (p.1, p.2 + 1) := if_pos h
      rw [hfst, if_pos h]
      simp only [h, if_pos]
    · have hfst : (if p.1 == k then (p.1, p.2 + 1) else p) = p := if_neg h
      rw [hfst, if_neg h, if_neg h]
      rw [containsKey_cons] at hk
      simp only [h, Bool.false_or] at hk
      rw [incrCount] at ih
      exact ih hk

theorem lookupCount_eq_zero_of_not_contains (m : Counts) (k : String)
    (hk : containsKey m k = false) : lookupCount m k = 0 := by
  induction m with
  | nil => rfl
  | cons p m ih =>
    rw [containsKey_cons, Bool.or_eq_false_iff] at hk
    rw [lookupCount_cons, if_neg (by simp [hk.1]), ih hk.2]

theorem containsKey_append_single (m : Counts) (k t : String) (c : Nat) :
    containsKey (m ++ [(k, c)]) t = (containsKey m t || (k == t)) := by
  simp [containsKey]

theorem lookupCount_append_single (m : Counts) (k t : String) (c : Nat)
    (hk : containsKey m k = false) :
    lookupCount (m ++ [(k, c)]) t = lookupCount m t + (if k = t then c else 0) := by
  induction m with
  | nil =>
    rw [List.nil_append, lookupCount_cons]
    by_cases h : k = t
    · rw [if_pos (by simp [h]), if_pos h]
      simp [lookupCount]
    · rw [if_neg (by simp [h]), if_neg h]
      simp [lookupCount]
  | cons p m ih =>
    rw [containsKey_cons, Bool.or_eq_false_iff] at hk
    rw [List.cons_append, lookupCount_cons, lookupCount_cons]
    by_cases h : p.1 == t
    · rw [if_pos h, if_pos h]
      have hkt : ¬ k = t := by
        intro he
        subst he
        simp [hk.1] at h
      rw [if_neg hkt]
      omega
    · rw [if_neg h, if_neg h, ih hk.2]

theorem containsKey_bumpCount (m : Counts) (k t : String) :
    containsKey (bumpCount m k) t = (containsKey m t || (k == t)) := by
  rw [bumpCount]
  by_cases hk : containsKey m k
  · rw [if_pos hk, containsKey_incrCount]
    by_cases hkt : k == t
    · have : containsKey m t = true := by
        have he : k = t := by simpa using hkt
        rw [← he]
        exact hk
      rw [this]
      simp
    · simp [hkt]
  · rw [if_neg hk, containsKey_append_single]

theorem lookupCount_bumpCount (m : Counts) (k t : String) :
    lookupCount (bumpCount m k) t = lookupCount m t + (if k = t then 1 else 0) := by
  rw [bumpCount]
  by_cases hk : containsKey m k
  · rw [if_pos hk]
    by_cases hkt : k = t
    · subst hkt
      rw [if_pos rfl]
      exact lookupCount_incrCount_self m k hk
    · rw [if_neg hkt, lookupCount_incrCount_ne m k t hkt]
      omega
  · rw [if_neg hk]

    simp only [Bool.not_eq_true] at hk
    exact lookupCount_append_single m k t 1 hk

theorem lookupCount_foldl_bump (ts : List String) :
    ∀ (m : Counts) (t : String),
      lookupCount (ts.foldl bumpCount m) t = lookupCount m t + ts.countP (fun c => c == t) := by
  induction ts with
  | nil =>
    intro m t
    simp
  | cons c ts ih =>
    intro m t
    rw [List.foldl_cons, ih (bumpCount m c) t, lookupCount_bumpCount, List.countP_cons]
    by_cases h : c = t
    · rw [if_pos h]
      simp [h]
      omega
    · rw [if_neg h]
      have : ¬ (c == t) := by simp [h]
      simp [this]

theorem containsKey_foldl_bump (ts : List String) :
    ∀ (m : Counts) (t : String),
      containsKey (ts.foldl bumpCount m) t = (containsKey m t || ts.any (fun c => c == t)) := by
  induction ts with
  | nil =>
    intro m t
    simp
  | cons c ts ih =>
    intro m t
    rw [List.foldl_cons, ih (bumpCount m c) t, containsKey_bumpCount]
    simp [Bool.or_assoc]

theorem decide_pos_add (a b : Nat) :
    (decide (0 < a) || decide (0 < b)) = decide (0 < a + b) := by
  by_cases h1 : 0 < a
  · simp [h1]
  · by_cases h2 : 0 < b
    · simp [h1, h2]
    · simp [h1, h2]

theorem any_eq_decide_countP_pos (l : List String) (p : String → Bool) :
    l.any p = decide (0 < l.countP p) := by
  by_cases h : l.any p = true
  · rw [h]
    symm
    rw [decide_eq_true_eq, List.countP_pos_iff]
    simpa using h
  · simp only [Bool.not_eq_true] at h
    rw [h]
    symm
    rw [decide_eq_false_iff_not, Nat.not_lt, Nat.le_zero, List.countP_eq_zero]
    intro a ha
    have := List.any_eq_false.mp h a ha
    simpa using this

mutual
theorem lookupCount_parseNode (t : String) :
    ∀ (n : HTMLNode) (m : Counts),
      lookupCount (parseHTMLNodeChildren m n) t = lookupCount m t + occNode t n
  | .mk attr children, m => by
    rw [parseHTMLNodeChildren, occNode,
      lookupCount_parseList t children ((splitWhitespace attr).foldl bumpCount m),
      lookupCount_foldl_bump]
    omega
theorem lookupCount_parseList (t : String) :
    ∀ (l : List HTMLNode) (m : Counts),
      lookupCount (parseHTMLNodeList m l) t = lookupCount m t + occList t l
  | [], m => by
    rw [parseHTMLNodeList, occList]
    omega
  | c :: cs, m => by
    rw [parseHTMLNodeList, occList, lookupCount_parseList t cs (parseHTMLNodeChildren m c),
      lookupCount_parseNode t c m]
    omega

end

mutual
theorem containsKey_parseNode (t : String) :
    ∀ (n : HTMLNode) (m : Counts),
      containsKey (parseHTMLNodeChildren m n) t = (containsKey m t || decide (0 < occNode t n))
  | .mk attr children, m => by
    rw [parseHTMLNodeChildren, occNode,
      containsKey_parseList t children ((splitWhitespace attr).foldl bumpCount m),
      containsKey_foldl_bump, any_eq_decide_countP_pos]
    rw [Bool.or_assoc, decide_pos_add]
theorem containsKey_parseList (t : String) :
    ∀ (l : List HTMLNode) (m : Counts),
      containsKey (parseHTMLNodeList m l) t = (containsKey m t || decide (0 < occList t l))
  | [], m => by
    rw [parseHTMLNodeList, occList]
    simp
  | c :: cs, m => by
    rw [parseHTMLNodeList, occList, containsKey_parseList t cs (parseHTMLNodeChildren m c),
      containsKey_parseNode t c m]
    rw [Bool.or_assoc, decide_pos_add]
end

theorem strAppend_data (a b : String) : (a ++ b).data = a.data ++ b.data := by
  cases a
  cases b
  rfl

theorem splitWSGo_clean (cs : List Char) :
    ∀ acc, (∀ c ∈ acc, ¬ c.isWhitespace) →
      ∀ l ∈ splitWSGo cs acc, l ≠ [] ∧ ∀ c ∈ l, ¬ c.isWhitespace := by
  induction cs with
  | nil =>
    intro acc hacc l hl
    rw [splitWSGo] at hl
    by_cases he : acc.isEmpty
    · simp [he] at hl
    · rw [if_neg he] at hl
      have hle : l = acc.reverse := by simpa using hl
      subst hle
      constructor
      · simp only [ne_eq, List.reverse_eq_nil_iff]
        simpa [List.isEmpty_iff] using he
      · intro c hc
        exact hacc c (List.mem_reverse.mp hc)
  | cons c cs ih =>
    intro acc hacc l hl
    rw [splitWSGo] at hl
    by_cases hw : c.isWhitespace
    · rw [if_pos hw] at hl
      by_cases he : acc.isEmpty
      · rw [if_pos he] at hl
        exact ih [] (by simp) l hl
      · rw [if_neg he] at hl
        rcases List.mem_cons.mp hl with hle | hl'
        · subst hle
          constructor
          · simp only [ne_eq, List.reverse_eq_nil_iff]
            simpa [List.isEmpty_iff] using he
          · intro d hd
            exact hacc d (List.mem_reverse.mp hd)
        · exact ih [] (by simp) l hl'
    · rw [if_neg hw] at hl
      refine ih (c :: acc) ?_ l hl
      intro d hd
      rcases List.mem_cons.mp hd with hdc | hda
      · subst hdc
        exact hw
      · exact hacc d hda

theorem splitWhitespace_clean (s : String) : ∀ t ∈ splitWhitespace s, cleanToken t := by
  intro t ht
  rw [splitWhitespace] at ht
  rcases List.mem_map.mp ht with ⟨l, hl, hlt⟩
  have := splitWSGo_clean s.data [] (by simp) l hl
  subst hlt
  exact ⟨this.1, this.2⟩

theorem splitWSGo_token (tok : List Char) :
    ∀ rest acc, (∀ c ∈ tok, ¬ c.isWhitespace) →
      splitWSGo (tok ++ rest) acc = splitWSGo rest (tok.reverse ++ acc) := by
  induction tok with
  | nil =>
    intro rest acc _
    simp
  | cons c tok ih =>
    intro rest acc htok
    rw [List.cons_append, splitWSGo,
      if_neg (htok c (List.mem_cons_self c tok)),
      ih rest (c :: acc) (fun d hd => htok d (List.mem_cons_of_mem c hd))]
    simp

theorem space_isWhitespace : (' ' : Char).isWhitespace = true := rfl

theorem splitWhitespace_joinSpace (ts : List String) :
    ts ≠ [] → (∀ t ∈ ts, cleanToken t) → splitWhitespace (joinSpace ts) = ts := by
  induction ts with
  | nil =>
    intro h _
    exact absurd rfl h
  | cons t ts ih =>
    intro _ hcl
    have ht := hcl t (List.mem_cons_self t ts)
    cases ts with
    | nil =>
      rw [joinSpace, splitWhitespace]
      have h1 : t.data = t.data ++ [] := by simp
      rw [h1, splitWSGo_token t.data [] [] ht.2, splitWSGo]
      have hne : ¬ (t.data.reverse ++ []).isEmpty := by
        simp [List.isEmpty_iff, ht.1]
      rw [if_neg hne]
      simp
    | cons t' ts' =>
      have hjoin : joinSpace (t :: t' :: ts') = t ++ " " ++ joinSpace (t' :: ts') := rfl
      rw [hjoin]
      have hdata : (t ++ " " ++ joinSpace (t' :: ts')).data
          = t.data ++ (' ' :: (joinSpace (t' :: ts')).data) := by
        rw [strAppend_data, strAppend_data]
        simp
      rw [splitWhitespace, hdata, splitWSGo_token t.data _ [] ht.2, splitWSGo,
        if_pos space_isWhitespace]
      have hne : ¬ (t.data.reverse ++ ([] : List Char)).isEmpty := by
        simp [List.isEmpty_iff, ht.1]
      rw [if_neg hne, List.map_cons]
      have hrec : (splitWSGo (joinSpace (t' :: ts')).data []).map (fun l => String.mk l)
          = t' :: ts' := by
        have := ih (List.cons_ne_nil t' ts') (fun u hu => hcl u (List.mem_cons_of_mem t hu))
        rw [splitWhitespace] at this
        exact this
      rw [hrec]
      simp

theorem cleanToken_substToken (rn : RenameMap) (hcl : ∀ p ∈ rn, cleanToken p.2)
    (c : String) (hc : cleanToken c) : cleanToken (substToken rn c) := by
  rw [substToken]
  cases hv : lookupRename rn c with
  | none => exact hc
  | some v =>
    rw [lookupRename] at hv
    cases hf : rn.find? (fun p => p.1 == c) with
    | none =>
      rw [hf] at hv
      exact Option.noConfusion hv
    | some p =>
      rw [hf] at hv
      simp at hv
      have hp := List.mem_of_find?_eq_some hf
      have := hcl p hp
      rw [hv] at this
      exact this

theorem renameTokens_clean (rn : RenameMap) (hcl : ∀ p ∈ rn, cleanToken p.2)
    (ts : List String) (hts : ∀ t ∈ ts, cleanToken t) :
    ∀ u ∈ renameTokens rn ts, cleanToken u := by
  intro u hu
  rcases List.mem_map.mp hu with ⟨t, htm, htu⟩
  subst htu
  exact cleanToken_substToken rn hcl t (hts t htm)

theorem splitWhitespace_process_attr (rn : RenameMap) (hcl : ∀ p ∈ rn, cleanToken p.2)
    (attr : String) :
    splitWhitespace
        (if (renameTokens rn (splitWhitespace attr)).length > 0
         then joinSpace (renameTokens rn (splitWhitespace attr))
         else attr)
      = renameTokens rn (splitWhitespace attr) := by
  by_cases h : (renameTokens rn (splitWhitespace attr)).length > 0
  · rw [if_pos h]
    refine splitWhitespace_joinSpace _ ?_ ?_
    · intro hnil
      rw [hnil] at h
      simp at h
    · exact renameTokens_clean rn hcl _ (splitWhitespace_clean attr)
  · rw [if_neg h]
    have hnil : renameTokens rn (splitWhitespace attr) = [] := by
      cases hvl : renameTokens rn (splitWhitespace attr) with
      | nil => rfl
      | cons a l => rw [hvl] at h; simp at h
    rw [hnil]
    have : splitWhitespace attr = [] := by
      rw [renameTokens] at hnil
      exact List.map_eq_nil_iff.mp hnil
    exact this

mutual
theorem nodeTokensList_process (rn : RenameMap) (hcl : ∀ p ∈ rn, cleanToken p.2) :
    ∀ n : HTMLNode,
      nodeTokensList (processHTMLNodeChildren rn n)
        = (nodeTokensList n).map (renameTokens rn)
  | .mk attr children => by
    show splitWhitespace
          (if (renameTokens rn (splitWhitespace attr)).length > 0
           then joinSpace (renameTokens rn (splitWhitespace attr))
           else attr)
        :: forestTokensList (processHTMLNodeList rn children)
      = (splitWhitespace attr :: forestTokensList children).map (renameTokens rn)
    rw [List.map_cons, forestTokensList_process rn hcl children,
      splitWhitespace_process_attr rn hcl attr]
theorem forestTokensList_process (rn : RenameMap) (hcl : ∀ p ∈ rn, cleanToken p.2) :
    ∀ l : List HTMLNode,
      forestTokensList (processHTMLNodeList rn l)
        = (forestTokensList l).map (renameTokens rn)
  | [] => rfl
  | c :: cs => by
    show nodeTokensList (processHTMLNodeChildren rn c)
          ++ forestTokensList (processHTMLNodeList rn cs)
      = (nodeTokensList c ++ forestTokensList cs).map (renameTokens rn)
    rw [List.map_append, nodeTokensList_process rn hcl c, forestTokensList_process rn hcl cs]
end

theorem foldl_or (f : CSSComponent → Bool) :
    ∀ (l : List CSSComponent) (b : Bool),
      l.foldl (fun r x => r || f x) b = (b || l.any f) := by
  intro l
  induction l with
  | nil =>
    intro b
    simp
  | cons x l ih =>
    intro b
    rw [List.foldl_cons, ih (b || f x), List.any_cons]
    simp [Bool.or_assoc]

theorem selectorUnused_eq (known : List String) (sel : CSSSelector) :
    selectorUnused known sel = selectorHasUnknownClass known sel := by
  rw [selectorUnused, selectorHasUnknownClass, foldl_or]
  simp

theorem ruleSelectorLoop_spec (known : List String) :
    ∀ (rest kept : List CSSSelector) (flag : Bool),
      ruleSelectorLoop known kept rest flag
        = (kept ++ rest.filter (fun s => !selectorUnused known s),
           flag || (decide (rest ≠ []) && (kept ++ rest.filter (fun s => !selectorUnused known s)).isEmpty)) := by
  intro rest
  induction rest with
  | nil =>
    intro kept flag
    rw [ruleSelectorLoop]
    simp
  | cons s rest ih =>
    intro kept flag
    rw [ruleSelectorLoop]
    by_cases hu : selectorUnused known s
    · rw [if_pos hu, ih]
      have hf : (s :: rest).filter (fun s => !selectorUnused known s)
          = rest.filter (fun s => !selectorUnused known s) := by
        rw [List.filter_cons]
        simp [hu]
      rw [hf]
      cases rest with
      | nil =>
        simp
      | cons s' rest' =>
        have hne : (kept ++ s' :: rest').isEmpty = false := by
          simp
        rw [hne]
        simp
    · rw [if_neg hu, ih]
      have hf : (s :: rest).filter (fun s => !selectorUnused known s)
          = s :: rest.filter (fun s => !selectorUnused known s) := by
        rw [List.filter_cons]
        simp [hu]
      rw [hf]
      cases rest with
      | nil =>
        simp
      | cons s' rest' =>
        have hne1 : ((kept ++ [s]) ++ s' :: rest').isEmpty = false := by
          simp
        have hne2 : ((kept ++ [s]) ++ List.filter (fun s => !selectorUnused known s) (s' :: rest')).isEmpty
            = false := by
          simp
        have hne3 : (kept ++ s :: List.filter (fun s => !selectorUnused known s) (s' :: rest')).isEmpty
            = false := by
          simp
        rw [hne1, hne2, hne3]
        simp

theorem pruneRule_spec (known : List String) (r : CSSRule) :
    pruneRule known r
      = ({ r with selectors := r.selectors.filter (fun s => !selectorHasUnknownClass known s) },
         decide (r.selectors ≠ [])
           && (r.selectors.filter (fun s => !selectorHasUnknownClass known s)).isEmpty) := by
  rw [pruneRule, ruleSelectorLoop_spec known r.selectors [] false]
  have hsel : (fun s => !selectorUnused known s) = (fun s => !selectorHasUnknownClass known s) := by
    funext s
    rw [selectorUnused_eq]
  rw [hsel]
  simp

theorem pruneStylesheet_spec (known : List String) (ss : Stylesheet) :
    (pruneStylesheet known ss).rules
      = ss.rules.filterMap (fun r =>
          if r.selectors ≠ []
              ∧ (r.selectors.filter (fun s => !selectorHasUnknownClass known s)).isEmpty
          then none
          else some { r with
            selectors := r.selectors.filter (fun s => !selectorHasUnknownClass known s) }) := by
  show ss.rules.filterMap (fun r =>
      let pr := pruneRule known r
      if pr.2 then none else some pr.1) = _
  congr 1
  funext r
  show (if (pruneRule known r).2 then none else some (pruneRule known r).1) = _
  rw [pruneRule_spec]
  by_cases h1 : r.selectors = []
  · have hd : decide (r.selectors ≠ []) = false := by simp [h1]
    rw [hd]
    simp [h1]
  · have hd : decide (r.selectors ≠ []) = true := by simp [h1]
    rw [hd]
    by_cases h2 : (r.selectors.filter (fun s => !selectorHasUnknownClass known s)).isEmpty = true
    · rw [h2]
      simp [h1, h2]
    · have h2f : (r.selectors.filter (fun s => !selectorHasUnknownClass known s)).isEmpty
          = false := by
        rwa [← Bool.not_eq_true]
      rw [h2f]
      simp [h1, h2f]

theorem containsKey_keysOf (m : Counts) (k : String) :
    strMem k (keysOf m) = containsKey m k := by
  rw [strMem, keysOf, containsKey]
  induction m with
  | nil => rfl
  | cons p m ih =>
    rw [List.map_cons, List.any_cons, List.any_cons, ih]

theorem mem_setKey (m : RenameMap) (k v : String) :
    ∀ p ∈ setKey m k v, p ∈ m ∨ p = (k, v) := by
  intro p hp
  rw [setKey] at hp
  by_cases h : m.any (fun p => p.1 == k)
  · rw [if_pos h] at hp
    rcases List.mem_map.mp hp with ⟨q, hq, hqp⟩
    by_cases hqk : q.1 == k
    · rw [if_pos hqk] at hqp
      right
      exact hqp.symm
    · rw [if_neg hqk] at hqp
      left
      rw [← hqp]
      exact hq
  · rw [if_neg h] at hp
    rcases List.mem_append.mp hp with hp1 | hp2
    · left
      exact hp1
    · right
      simpa using hp2

/-- A rename-map entry is sound for a ranked classname list when its key is
the classname at some rank and its value is the generated name of that
rank. -/
def GoodEntry (sorted : List String) (p : String × String) : Prop :=
  ∃ i, sorted.get? i = some p.1 ∧ p.2 = generateShortestName i

theorem processCSSLoop_entries (sorted : List String) :
    ∀ (ts : List String) (i : Nat) (ss : Stylesheet) (rn : RenameMap),
      sorted.drop i = ts →
      (∀ p ∈ rn, GoodEntry sorted p) →
      ∀ p ∈ (processCSSLoop ts i ss rn).2, GoodEntry sorted p := by
  intro ts
  induction ts with
  | nil =>
    intro i ss rn _ hgood p hp
    exact hgood p hp
  | cons t ts ih =>
    intro i ss rn hdrop hgood p hp
    have hget : sorted.get? i = some t := by
      have h0 : (sorted.drop i).get? 0 = sorted.get? i := by
        rw [List.get?_drop]
        rfl
      rw [hdrop] at h0
      exact h0.symm
    have hdrop' : sorted.drop (i + 1) = ts := by
      have : sorted.drop (i + 1) = (sorted.drop i).drop 1 := by
        rw [List.drop_drop]
      rw [this, hdrop]
      rfl
    rw [processCSSLoop] at hp
    refine ih (i + 1) (renameStylesheet t (generateShortestName i) ss).1 _ hdrop' ?_ p hp
    intro q hq
    by_cases hm : (renameStylesheet t (generateShortestName i) ss).2
    · rw [if_pos hm] at hq
      rcases mem_setKey rn t (generateShortestName i) q hq with hq1 | hq2
      · exact hgood q hq1
      · subst hq2
        exact ⟨i, hget, rfl⟩
    · rw [if_neg hm] at hq
      exact hgood q hq

theorem processCSSFiles_entries (sorted : List String) :
    ∀ (files : List Stylesheet) (rn : RenameMap),
      (∀ p ∈ rn, GoodEntry sorted p) →
      ∀ p ∈ (processCSSFiles sorted files rn).2, GoodEntry sorted p := by
  intro files
  induction files with
  | nil =>
    intro rn hgood p hp
    exact hgood p hp
  | cons ss files ih =>
    intro rn hgood p hp
    rw [processCSSFiles] at hp
    exact ih (processCSSLoop sorted 0 ss rn).2
      (processCSSLoop_entries sorted sorted 0 ss rn (by rfl) hgood) p hp

theorem lookupRename_mem (m : RenameMap) (k v : String)
    (h : lookupRename m k = some v) : (k, v) ∈ m := by
  rw [lookupRename] at h
  cases hf : m.find? (fun p => p.1 == k) with
  | none =>
    rw [hf] at h
    exact Option.noConfusion h
  | some p =>
    rw [hf] at h
    simp only [Option.map_some'] at h
    have hp := List.mem_of_find?_eq_some hf
    have hpk := List.find?_some hf
    have hk : p.1 = k := by simpa using hpk
    have hv : p.2 = v := by simpa using h
    have : p = (k, v) := by
      cases p
      simp_all
    rw [← this]
    exact hp

/-- C1 (counterexample): dead-rule elimination as the code performs it differs
from the specification's component-level removal.  With known set `used` and
the single rule `.unused div { color:red }`, the code removes the whole
selector (and with it the rule), while the specification's words would keep
the selector as `div`. -/
theorem claim1_dead_rule_counterexample :
    pruneStylesheet ["used"]
        ⟨[⟨[⟨[CSSComponent.classSel "unused", CSSComponent.other "div"]⟩], "color:red"⟩]⟩
      = ⟨[]⟩
    ∧ pruneStylesheetSpec ["used"]
        ⟨[⟨[⟨[CSSComponent.classSel "unused", CSSComponent.other "div"]⟩], "color:red"⟩]⟩
      = ⟨[⟨[⟨[CSSComponent.other "div"]⟩], "color:red"⟩]⟩
    ∧ pruneStylesheet ["used"]
        ⟨[⟨[⟨[CSSComponent.classSel "unused", CSSComponent.other "div"]⟩], "color:red"⟩]⟩
      ≠ pruneStylesheetSpec ["used"]
        ⟨[⟨[⟨[CSSComponent.classSel "unused", CSSComponent.other "div"]⟩], "color:red"⟩]⟩ := by
  refine ⟨by decide, by decide, by decide⟩

/-- C1 (amended): during dead-rule elimination, a selector containing any
class-selector component whose escape-stripped identifier is absent from the
known classname set is removed whole from the rule's selector list (its other
components are not preserved); a surviving selector keeps its component list
intact; and a rule is removed from the stylesheet exactly when its selector
list was nonempty and every one of its selectors was removed. -/
theorem claim1_dead_rule_amended (known : List String) (ss : Stylesheet) :
    (pruneStylesheet known ss).rules
      = ss.rules.filterMap (fun r =>
          if r.selectors ≠ []
              ∧ (r.selectors.filter (fun s => !selectorHasUnknownClass known s)).isEmpty
          then none
          else some { r with
            selectors := r.selectors.filter (fun s => !selectorHasUnknownClass known s) }) :=
  pruneStylesheet_spec known ss

/-- C2: the rename map built while rewriting the CSS files of one build unit
(starting from the empty map) is injective: two keys mapped to the same short
name are equal.  Every entry pairs the classname at some rank with the
generated name of that rank, and the generator is injective. -/
theorem claim2_rename_map_injective (sorted : List String) (files : List Stylesheet)
    (k1 k2 v : String)
    (h1 : lookupRename (processCSSFiles sorted files []).2 k1 = some v)
    (h2 : lookupRename (processCSSFiles sorted files []).2 k2 = some v) :
    k1 = k2 := by
  have hempty : ∀ p ∈ ([] : RenameMap), GoodEntry sorted p :=
    fun p hp => absurd hp (List.not_mem_nil p)
  have g1 := processCSSFiles_entries sorted files [] hempty (k1, v) (lookupRename_mem _ _ _ h1)
  have g2 := processCSSFiles_entries sorted files [] hempty (k2, v) (lookupRename_mem _ _ _ h2)
  rcases g1 with ⟨i, hgi, hvi⟩
  rcases g2 with ⟨j, hgj, hvj⟩
  have hij : i = j := generateShortestName_inj i j (by rw [← hvi, ← hvj])
  rw [hij] at hgi
  rw [hgi] at hgj
  have := Option.some_inj.mp hgj
  simpa using this

/-- C2 (witness): the injectivity theorem applied at a concrete build unit
with two classnames. -/
theorem claim2_rename_map_injective_witness :
    lookupRename
        (processCSSFiles ["zz", "aa"]
          [⟨[⟨[⟨[CSSComponent.classSel "zz"]⟩], "b1"⟩, ⟨[⟨[CSSComponent.classSel "aa"]⟩], "b2"⟩]⟩]
          []).2 "zz" = some "a"
    ∧ "zz" = "zz" :=
  ⟨by decide,
   claim2_rename_map_injective ["zz", "aa"]
     [⟨[⟨[⟨[CSSComponent.classSel "zz"]⟩], "b1"⟩, ⟨[⟨[CSSComponent.classSel "aa"]⟩], "b2"⟩]⟩]
     "zz" "zz" "a" (by decide) (by decide)⟩

/-- C3: the shortest-name generator is a pure total function on `Nat`:
indices below twenty-six give the single letters `a`..`z` in order, index 26
gives `a0`, index 51 gives `z0`, index 52 gives `a1`, and in general round
`k + 1` of twenty-six assignments appends round number `k`. -/
theorem claim3_shortest_name_generator :
    (∀ i, i < 26 → generateShortestName i = String.mk [asciiLetters.getD i 'a'])
    ∧ asciiLetters = "abcdefghijklmnopqrstuvwxyz".data
    ∧ generateShortestName 26 = "a0"
    ∧ generateShortestName 51 = "z0"
    ∧ generateShortestName 52 = "a1"
    ∧ (∀ k r, r < 26 →
        generateShortestName (26 * (k + 1) + r)
          = String.mk [asciiLetters.getD r 'a'] ++ natRepr k) := by
  refine ⟨?_, by decide, by decide, by decide, by decide, ?_⟩
  · intro i h
    rw [generateShortestName_eq, if_pos h]
  · intro k r h
    rw [generateShortestName_eq]
    have hge : ¬ (26 * (k + 1) + r < 26) := by omega
    rw [if_neg hge]
    have h1 : (26 * (k + 1) + r) % 26 = r := by omega
    have h2 : (26 * (k + 1) + r) / 26 - 1 = k := by omega
    rw [h1, h2]

/-- C3 (witness): the generator theorem applied at index 25 and at round 3,
letter index 3. -/
theorem claim3_shortest_name_generator_witness :
    (25 < 26 ∧ generateShortestName 25 = String.mk [asciiLetters.getD 25 'a'])
    ∧ (3 < 26 ∧ generateShortestName (26 * (2 + 1) + 3)
        = String.mk [asciiLetters.getD 3 'a'] ++ natRepr 2) :=
  ⟨⟨by decide, claim3_shortest_name_generator.1 25 (by decide)⟩,
   ⟨by decide, claim3_shortest_name_generator.2.2.2.2.2 2 3 (by decide)⟩⟩

/-- C4: the rename planner weighs every counted classname by
`name length * count`, ranks by descending byte weight with a stable
deterministic sort, and assigns generated names in rank order; for counts
`x ↦ 10` and `longname ↦ 3` the weights are 10 and 24, `longname` ranks
first and receives `a`, and `x` receives `b`. -/
theorem claim4_rename_planner_ranking :
    (∀ m : Counts,
        (sortedEntries m).Pairwise weightGE
        ∧ (sortedEntries m).Perm (m.map (fun p => (p.1, p.1.length * p.2))))
    ∧ sortedEntries [("x", 10), ("longname", 3)] = [("longname", 24), ("x", 10)]
    ∧ sortedNames [("x", 10), ("longname", 3)] = ["longname", "x"]
    ∧ lookupRename
        (processCSSLoop (sortedNames [("x", 10), ("longname", 3)]) 0
          ⟨[⟨[⟨[CSSComponent.classSel "x"]⟩], "c1"⟩, ⟨[⟨[CSSComponent.classSel "longname"]⟩], "c2"⟩]⟩
          []).2 "longname" = some "a"
    ∧ lookupRename
        (processCSSLoop (sortedNames [("x", 10), ("longname", 3)]) 0
          ⟨[⟨[⟨[CSSComponent.classSel "x"]⟩], "c1"⟩, ⟨[⟨[CSSComponent.classSel "longname"]⟩], "c2"⟩]⟩
          []).2 "x" = some "b" := by
  refine ⟨?_, by decide, by decide, by decide, by decide⟩
  intro m
  exact ⟨List.sorted_insertionSort weightGE _, List.perm_insertionSort weightGE _⟩

/-- C5 (code bug, failing input): with HTML counts containing only `a`, the
stylesheet `.a:not(.b){color:red}` passes dead-rule elimination untouched
(the pruning pass examines only the top-level components of each selector,
and the nested `.b` sits inside the `:not` prelude), yet the subsequent
counting walk visits the nested class selector `.b`, finds `b` absent from
the known set, and takes the fatal-error branch - so Invariant I1 is not
established by pruning and the branch is reachable. -/
theorem claim5_invariant_one_violated :
    pruneStylesheet (keysOf [("a", 1)])
        ⟨[⟨[⟨[CSSComponent.classSel "a",
            CSSComponent.pseudo "not" [[CSSComponent.classSel "b"]]]⟩], "color:red"⟩]⟩
      = ⟨[⟨[⟨[CSSComponent.classSel "a",
            CSSComponent.pseudo "not" [[CSSComponent.classSel "b"]]]⟩], "color:red"⟩]⟩
    ∧ countStylesheet [("a", 1)]
        (pruneStylesheet (keysOf [("a", 1)])
          ⟨[⟨[⟨[CSSComponent.classSel "a",
              CSSComponent.pseudo "not" [[CSSComponent.classSel "b"]]]⟩], "color:red"⟩]⟩)
      = Except.error "encountered unused class selector when it should have been removed"
    ∧ (∀ p, parseCSS [("a", 1)]
        ⟨[⟨[⟨[CSSComponent.classSel "a",
            CSSComponent.pseudo "not" [[CSSComponent.classSel "b"]]]⟩], "color:red"⟩]⟩
        ≠ Except.ok p) := by
  refine ⟨by decide, rfl, ?_⟩
  intro p hc
  rw [show parseCSS [("a", 1)]
      ⟨[⟨[⟨[CSSComponent.classSel "a",
          CSSComponent.pseudo "not" [[CSSComponent.classSel "b"]]]⟩], "color:red"⟩]⟩
      = Except.error "encountered unused class selector when it should have been removed"
    from rfl] at hc
  exact Except.noConfusion hc

/-- General property of the HTML rewrite over a string-valued rename map
whose short names are well-formed tokens: every node's class-token list is
mapped pointwise (the map's entry when present, the original token
otherwise). -/
theorem html_rewrite_pointwise (rn : RenameMap) (hclean : ∀ p ∈ rn, cleanToken p.2)
    (t : HTMLNode) :
    nodeTokensList (processHTMLNodeChildren rn t)
      = (nodeTokensList t).map (List.map (fun c =>
          match lookupRename rn c with
          | some v => v
          | none => c)) := by
  rw [nodeTokensList_process rn hclean t]
  rfl

/-- C6 (code bug, failing input): `rip` initializes the rename dictionary as
`{ classnames: {} }` and the HTML pass tests `c in rename` against that same
flat object, so the token `classnames` always has an entry holding the empty
object; rewriting a node with `class="classnames"` (with no CSS rewrite
entries added) therefore coerces that object to `[object Object]`, which is
neither the original token nor any assigned short name and even re-splits
into two tokens - while a dictionary without the stray initializer key would
leave the token unchanged. -/
theorem claim6_round_trip_violated :
    lookupJS initialRenameObject "classnames" = some JSValue.emptyObj
    ∧ (processHTMLNodeChildrenJS initialRenameObject
        (HTMLNode.mk "classnames" [])).classAttr = "[object Object]"
    ∧ splitWhitespace "[object Object]" = ["[object", "Object]"]
    ∧ ("[object Object]" : String) ≠ "classnames"
    ∧ (processHTMLNodeChildren [] (HTMLNode.mk "classnames" [])).classAttr
      = "classnames" := by
  refine ⟨by decide, by decide, by decide, by decide, by decide⟩

/-- C7: the classname counter adds, for every token of every descendant
node's whitespace-split class list, exactly one to that token's count; a key
is present afterwards exactly when it was present before or occurs in the
tree (so fresh tokens are inserted, with count equal to their occurrence
number, and no key is ever removed); and `"a b a"` splits into `a, b, a`,
counting `a` twice and `b` once. -/
theorem claim7_classname_counter :
    (∀ (m : Counts) (n : HTMLNode) (t : String),
        lookupCount (parseHTMLNodeChildren m n) t = lookupCount m t + occNode t n)
    ∧ (∀ (m : Counts) (n : HTMLNode) (t : String),
        containsKey (parseHTMLNodeChildren m n) t
          = (containsKey m t || decide (0 < occNode t n)))
    ∧ splitWhitespace "a b a" = ["a", "b", "a"]
    ∧ lookupCount (parseHTMLNodeChildren [] (HTMLNode.mk "a b a" [])) "a" = 2
    ∧ lookupCount (parseHTMLNodeChildren [] (HTMLNode.mk "a b a" [])) "b" = 1 := by
  refine ⟨?_, ?_, by decide, by decide, by decide⟩
  · intro m n t
    exact lookupCount_parseNode t n m
  · intro m n t
    exact containsKey_parseNode t n m

/-- C8: evaluation of the code at the failing input.  The classname `a`
appears in no class selector of the stylesheet (only `zz` does), yet after
the CSS rewrite pass the rename map contains the entry `a ↦ b`, the HTML
rewrite therefore renames the token `a` to `b`, and the stylesheet's one
selector has meanwhile been renamed twice (`zz` to `a` to `b`), leaving the
recorded entry `zz ↦ a` pointing at a selector name that no longer exists. -/
theorem claim8_html_only_classname_renamed :
    stylesheetHasClass "a" ⟨[⟨[⟨[CSSComponent.classSel "zz"]⟩], "color:blue"⟩]⟩ = false
    ∧ sortedNames [("zz", 5), ("a", 1)] = ["zz", "a"]
    ∧ lookupRename
        (processCSSLoop (sortedNames [("zz", 5), ("a", 1)]) 0
          ⟨[⟨[⟨[CSSComponent.classSel "zz"]⟩], "color:blue"⟩]⟩ []).2 "a" = some "b"
    ∧ lookupRename
        (processCSSLoop (sortedNames [("zz", 5), ("a", 1)]) 0
          ⟨[⟨[⟨[CSSComponent.classSel "zz"]⟩], "color:blue"⟩]⟩ []).2 "zz" = some "a"
    ∧ renameTokens
        (processCSSLoop (sortedNames [("zz", 5), ("a", 1)]) 0
          ⟨[⟨[⟨[CSSComponent.classSel "zz"]⟩], "color:blue"⟩]⟩ []).2 ["a"] = ["b"]
    ∧ (processCSSLoop (sortedNames [("zz", 5), ("a", 1)]) 0
        ⟨[⟨[⟨[CSSComponent.classSel "zz"]⟩], "color:blue"⟩]⟩ []).1
      = ⟨[⟨[⟨[CSSComponent.classSel "b"]⟩], "color:blue"⟩]⟩ := by
  refine ⟨by decide, by decide, by decide, by decide, by decide, by decide⟩

/-- C9 (counterexample): the assigned-name length is not non-increasing in
the index: the name at index 26 is strictly longer than the name at
index 0. -/
theorem claim9_length_counterexample :
    (generateShortestName 0).length = 1
    ∧ (generateShortestName 26).length = 2
    ∧ ¬ ((generateShortestName 26).length ≤ (generateShortestName 0).length) := by
  refine ⟨by decide, by decide, by decide⟩

/-- C9 (amended): assigned-name length is monotone non-decreasing as rank
worsens: a later (worse) rank never receives a shorter name than an earlier
(better) rank. -/
theorem claim9_length_amended (i j : Nat) (h : i ≤ j) :
    (generateShortestName i).length ≤ (generateShortestName j).length :=
  generateShortestName_length_mono i j h

/-- C9 (witness): the amended monotonicity applied at indices 0 and 26. -/
theorem claim9_length_amended_witness :
    0 ≤ 26 ∧ (generateShortestName 0).length ≤ (generateShortestName 26).length :=
  ⟨by decide, claim9_length_amended 0 26 (by decide)⟩

/-- C10: whenever a node's class-token list is nonempty, the HTML rewrite
pass replaces the class attribute by the (possibly renamed) tokens joined by
single spaces, even when the rename map touches none of them; hence a run of
whitespace between tokens collapses to a single space, as for the attribute
`"a  b"` with an empty rename map. -/
theorem claim10_class_attr_rewrite :
    (∀ (rn : RenameMap) (attr : String) (children : List HTMLNode),
        splitWhitespace attr ≠ [] →
        (processHTMLNodeChildren rn (HTMLNode.mk attr children)).classAttr
          = joinSpace (renameTokens rn (splitWhitespace attr)))
    ∧ (processHTMLNodeChildren [] (HTMLNode.mk "a  b" [])).classAttr = "a b"
    ∧ ("a b" : String) ≠ "a  b" := by
  refine ⟨?_, by decide, by decide⟩
  intro rn attr children h
  have hlen : (renameTokens rn (splitWhitespace attr)).length > 0 := by
    rw [renameTokens, List.length_map]
    exact List.length_pos.mpr h
  show (if (renameTokens rn (splitWhitespace attr)).length > 0
        then joinSpace (renameTokens rn (splitWhitespace attr))
        else attr) = _
  rw [if_pos hlen]

/-- C10 (witness): the attribute-rewrite theorem applied to a concrete node
with an all-whitespace-separated attribute and the empty rename map. -/
theorem claim10_class_attr_rewrite_witness :
    splitWhitespace "x  y" ≠ []
    ∧ (processHTMLNodeChildren [] (HTMLNode.mk "x  y" [])).classAttr
      = joinSpace (renameTokens [] (splitWhitespace "x  y")) :=
  ⟨by decide, claim10_class_attr_rewrite.1 [] "x  y" [] (by decide)⟩

end Styleripper
